import Mathlib

/-!
Verification development for the difference_engine repository.

The definitions below are a shallow embedding of the agent core
(src/agent/fs.py, src/agent/server.py) and of the commit-document
migration (src/classes/migration.py).  Filesystem directories are
modelled as association lists from directory names to their contents;
directory names are treated as atomic labels.  JSON documents that the
engine reads or writes are modelled by dedicated structures or by
association lists of JSON values.  Wall-clock readings (iso_now and the
strftime commit identifier) are passed in as explicit parameters.
-/

namespace DiffEngine

/-! ### Path Resolver: sanitize_name (src/agent/fs.py lines 10-16)

Python code:
  SAFE_NAME_RE = re.compile(r"[^A-Za-z0-9._-]+")
  def sanitize_name(name):
      name = name.strip().replace(" ", "_")
      name = SAFE_NAME_RE.sub("", name)
      return name or "untitled"

Python str.strip removes Unicode whitespace from both ends; the model
covers the ASCII whitespace characters.  The difference is immaterial
for every theorem below because all whitespace characters lie outside
the allowed class [A-Za-z0-9._-] and are therefore removed by the
regular-expression substitution in any case.
-/

def pyIsSpace (c : Char) : Bool :=
  c == ' ' || c == '\t' || c == '\n' || c == '\r' || c == '\x0b' || c == '\x0c'

/-- Membership in the character class A-Za-z0-9._- of SAFE_NAME_RE
(characters NOT matched by the regex, hence kept by the substitution). -/
def isAllowedChar (c : Char) : Bool :=
  ('A' ≤ c && c ≤ 'Z') || ('a' ≤ c && c ≤ 'z') || ('0' ≤ c && c ≤ '9') ||
    c == '.' || c == '_' || c == '-'

/-- Model of Python str.strip(): drop whitespace from both ends. -/
def pyStrip (l : List Char) : List Char :=
  ((l.dropWhile pyIsSpace).reverse.dropWhile pyIsSpace).reverse

/-- The sanitiser on character lists: strip, replace each space by an
underscore, delete every character outside the allowed class, and fall
back to the sentinel when nothing remains. -/
def sanitizeList (l : List Char) : List Char :=
  let t := ((pyStrip l).map (fun c => if c = ' ' then '_' else c)).filter isAllowedChar
  if t = [] then "untitled".data else t

/-- Model of fs.sanitize_name. -/
def sanitize_name (s : String) : String := ⟨sanitizeList s.data⟩

theorem pyIsSpace_of_allowed {c : Char} (h : isAllowedChar c = true) :
    pyIsSpace c = false := by
  cases hc : pyIsSpace c with
  | false => rfl
  | true =>
    simp only [pyIsSpace, Bool.or_eq_true, beq_iff_eq] at hc
    rcases hc with ((((rfl | rfl) | rfl) | rfl) | rfl) | rfl <;> exact absurd h (by decide)

theorem ne_space_of_allowed {c : Char} (h : isAllowedChar c = true) : c ≠ ' ' := by
  rintro rfl; exact absurd h (by decide)

theorem dropWhile_eq_self_of {p : Char → Bool} {l : List Char}
    (h : ∀ c ∈ l, p c = false) : l.dropWhile p = l := by
  cases l with
  | nil => rfl
  | cons a t => simp [List.dropWhile, h a (List.mem_cons_self a t)]

theorem pyStrip_eq_self {l : List Char} (h : ∀ c ∈ l, pyIsSpace c = false) :
    pyStrip l = l := by
  unfold pyStrip
  rw [dropWhile_eq_self_of h, dropWhile_eq_self_of, List.reverse_reverse]
  intro c hc
  exact h c (List.mem_reverse.mp hc)

theorem map_eq_self_of {f : Char → Char} {l : List Char}
    (h : ∀ c ∈ l, f c = c) : l.map f = l := by
  induction l with
  | nil => rfl
  | cons a t ih =>
    simp only [List.map_cons, h a (List.mem_cons_self a t)]
    rw [ih (fun c hc => h c (List.mem_cons_of_mem a hc))]

theorem mem_pyStrip {c : Char} {l : List Char} (h : c ∈ pyStrip l) : c ∈ l := by
  unfold pyStrip at h
  rw [List.mem_reverse] at h
  have h1 := (List.dropWhile_sublist pyIsSpace).mem h
  rw [List.mem_reverse] at h1
  exact (List.dropWhile_sublist pyIsSpace).mem h1

theorem mem_sanitizeList_allowed {c : Char} {l : List Char}
    (h : c ∈ sanitizeList l) : isAllowedChar c = true := by
  unfold sanitizeList at h
  by_cases ht : ((pyStrip l).map (fun c => if c = ' ' then '_' else c)).filter isAllowedChar = []
  · simp only [ht, if_pos] at h
    revert h
    have : ∀ c ∈ "untitled".data, isAllowedChar c = true := by decide
    exact this c
  · simp only [ht, if_neg, not_false_iff] at h
    exact (List.mem_filter.mp h).2

theorem sanitizeList_ne_nil (l : List Char) : sanitizeList l ≠ [] := by
  unfold sanitizeList
  by_cases ht : ((pyStrip l).map (fun c => if c = ' ' then '_' else c)).filter isAllowedChar = []
  · simp only [ht, if_pos]; decide
  · simp only [ht, if_neg, not_false_iff]; exact ht

theorem sanitizeList_idem (l : List Char) :
    sanitizeList (sanitizeList l) = sanitizeList l := by
  have hall : ∀ c ∈ sanitizeList l, isAllowedChar c = true :=
    fun c hc => mem_sanitizeList_allowed hc
  have hstrip : pyStrip (sanitizeList l) = sanitizeList l :=
    pyStrip_eq_self (fun c hc => pyIsSpace_of_allowed (hall c hc))
  have hmap : (sanitizeList l).map (fun c => if c = ' ' then '_' else c) = sanitizeList l :=
    map_eq_self_of (fun c hc => if_neg (ne_space_of_allowed (hall c hc)))
  have hfilter : (sanitizeList l).filter isAllowedChar = sanitizeList l :=
    List.filter_eq_self.mpr hall
  conv_lhs => rw [sanitizeList]
  rw [hstrip, hmap, hfilter, if_neg (sanitizeList_ne_nil l)]

theorem sanitize_name_idem (s : String) :
    sanitize_name (sanitize_name s) = sanitize_name s := by
  unfold sanitize_name
  exact congrArg String.mk (sanitizeList_idem s.data)

theorem sanitize_name_ne_empty (s : String) : sanitize_name s ≠ "" := by
  unfold sanitize_name
  intro h
  exact sanitizeList_ne_nil s.data (congrArg String.data h)

theorem sanitizeList_all_disallowed {l : List Char}
    (h : ∀ c ∈ l, isAllowedChar c = false ∧ c ≠ ' ') :
    sanitizeList l = "untitled".data := by
  unfold sanitizeList
  have hmap : (pyStrip l).map (fun c => if c = ' ' then '_' else c) = pyStrip l :=
    map_eq_self_of (fun c hc => if_neg (h c (mem_pyStrip hc)).2)
  have hfilter : (pyStrip l).filter isAllowedChar = [] :=
    List.filter_eq_nil_iff.mpr
      (fun c hc => by rw [(h c (mem_pyStrip hc)).1]; exact Bool.false_ne_true)
  rw [hmap, hfilter, if_pos rfl]

/-! ### JSON values

A small value type for the JSON documents the engine reads and writes.
The constructor componentsDefault stands for the nested default object
that the migration writes under the key exported_components (geometry,
transform, materials, uv_layout, all true); it is modelled atomically
because no theorem below inspects its fields. -/

inductive JVal where
  | null : JVal
  | str (s : String) : JVal
  | componentsDefault : JVal
deriving DecidableEq, Repr

/-- Python truthiness of the values that occur in these documents:
None and the empty string are falsy, a non-empty string and a non-empty
dict are truthy. -/
def truthy : JVal → Bool
  | .null => false
  | .str s => decide (s ≠ "")
  | .componentsDefault => true

/-- A parsed JSON object: association list in insertion order, as a
Python dict (keys unique in any dict that Python can actually produce). -/
abbrev JDoc := List (String × JVal)

/-- Model of dict.get(k): the value at the first matching key. -/
def jget : JDoc → String → Option JVal
  | [], _ => none
  | (k2, v) :: t, k => if k2 = k then some v else jget t k

/-- Model of dict assignment d[k] = v: replace in place, else append. -/
def jset : JDoc → String → JVal → JDoc
  | [], k, v => [(k, v)]
  | (k2, v2) :: t, k, v => if k2 = k then (k2, v) :: t else (k2, v2) :: jset t k v

/-- Model of the Python expression x or y (on optional JSON values):
keep x when truthy, otherwise produce y.  A missing key (None) is falsy. -/
def pyOr (x y : Option JVal) : Option JVal :=
  match x with
  | some v => if truthy v then some v else y
  | none => y

/-- Model of fs.read_correct (src/agent/fs.py lines 115-119) applied to
the parsed contents of correct.json (none when the file is absent):

  data = read_json_if_exists(...)
  if not data: return None
  return data.get("current_branch") or data.get("correct_branch")

Note that an empty document is falsy in Python, hence also maps to None. -/
def read_correct (file : Option JDoc) : Option JVal :=
  match file with
  | none => none
  | some d =>
      if d = [] then none
      else pyOr (jget d "current_branch") (jget d "correct_branch")

/-! ### Lexicographic order on strings

Python compares strings lexicographically by code point.  The builtin
order on Lean strings does not reduce inside the kernel, so the model
carries its own lexicographic comparison on the underlying character
lists, and sorts with the Mathlib insertion sort (extensionally equal
to any sort, in particular to the Python sorted builtin, because a
sorted permutation under a total antisymmetric order is unique). -/

def lexLe : List Char → List Char → Bool
  | [], _ => true
  | _ :: _, [] => false
  | a :: as, b :: bs => if a < b then true else if a = b then lexLe as bs else false

theorem lexLe_trans : ∀ a b c : List Char,
    lexLe a b = true → lexLe b c = true → lexLe a c = true := by
  intro a
  induction a with
  | nil => intro b c _ _; rfl
  | cons x xs ih =>
    intro b c h1 h2
    cases b with
    | nil => simp [lexLe] at h1
    | cons y ys =>
      cases c with
      | nil => simp [lexLe] at h2
      | cons z zs =>
        simp only [lexLe] at h1 h2 ⊢
        by_cases hxy : x < y
        · by_cases hyz : y < z
          · simp [if_pos (lt_trans hxy hyz)]
          · by_cases hyz2 : y = z
            · subst hyz2; simp [if_pos hxy]
            · simp [if_neg hyz, if_neg hyz2] at h2
        · by_cases hxy2 : x = y
          · subst hxy2
            simp only [if_neg hxy, if_pos rfl] at h1
            by_cases hxz : x < z
            · simp [if_pos hxz]
            · by_cases hxz2 : x = z
              · subst hxz2
                simp only [if_neg hxz, if_pos rfl] at h2 ⊢
                exact ih ys zs h1 h2
              · simp [if_neg hxz, if_neg hxz2] at h2
          · simp [if_neg hxy, if_neg hxy2] at h1

theorem lexLe_total : ∀ a b : List Char, lexLe a b = true ∨ lexLe b a = true := by
  intro a
  induction a with
  | nil => intro b; left; rfl
  | cons x xs ih =>
    intro b
    cases b with
    | nil => right; rfl
    | cons y ys =>
      simp only [lexLe]
      rcases lt_trichotomy x y with h | h | h
      · left; simp [if_pos h]
      · subst h
        rcases ih ys with h2 | h2
        · left; simp [lt_irrefl, h2]
        · right; simp [lt_irrefl, h2]
      · right; simp [if_pos h]

/-- Python string less-or-equal (code-point lexicographic). -/
def strLe (a b : String) : Prop := lexLe a.data b.data = true

/-- The reversed order used by sorted(..., reverse=True). -/
def strGe (a b : String) : Prop := strLe b a

instance : DecidableRel strLe := fun a b => instDecidableEqBool (lexLe a.data b.data) true

instance : DecidableRel strGe := fun a b => instDecidableEqBool (lexLe b.data a.data) true

instance : IsTrans String strLe := ⟨fun a b c => lexLe_trans a.data b.data c.data⟩

instance : IsTotal String strLe := ⟨fun a b => lexLe_total a.data b.data⟩

instance : IsTrans String strGe := ⟨fun a b c h1 h2 => lexLe_trans c.data b.data a.data h2 h1⟩

instance : IsTotal String strGe := ⟨fun a b => (lexLe_total b.data a.data)⟩

/-- Model of the Python builtin sorted() on a list of names. -/
def sortAsc (l : List String) : List String := List.insertionSort strLe l

/-- Model of sorted(..., reverse=True). -/
def sortDesc (l : List String) : List String := List.insertionSort strGe l

/-! ### Association-list operations for directory trees

A directory is an association list from entry names to contents.  getA
looks an entry up, modA creates or modifies an entry (os.makedirs and
the exist-ok create operations), adjA modifies an entry only when it
exists (delete operations never create their parents), eraseA removes
an entry (shutil.rmtree). -/

def getA {α : Type} : List (String × α) → String → Option α
  | [], _ => none
  | (k2, v) :: t, k => if k2 = k then some v else getA t k

def keysA {α : Type} (l : List (String × α)) : List String := l.map Prod.fst

def modA {α : Type} : List (String × α) → String → α → (α → α) → List (String × α)
  | [], k, d, f => [(k, f d)]
  | (k2, v) :: t, k, d, f =>
      if k2 = k then (k2, f v) :: t else (k2, v) :: modA t k d f

def adjA {α : Type} (l : List (String × α)) (k : String) (f : α → α) : List (String × α) :=
  l.map (fun kv => if kv.1 = k then (kv.1, f kv.2) else kv)

def eraseA {α : Type} (l : List (String × α)) (k : String) : List (String × α) :=
  l.filter (fun kv => decide (kv.1 ≠ k))

theorem getA_modA_self {α : Type} (l : List (String × α)) (k : String) (d : α) (f : α → α) :
    getA (modA l k d f) k = some (f ((getA l k).getD d)) := by
  induction l with
  | nil => simp [modA, getA]
  | cons kv t ih =>
    obtain ⟨k2, v⟩ := kv
    by_cases h : k2 = k
    · simp [modA, getA, if_pos h]
    · simp [modA, getA, if_neg h, ih]

theorem getA_modA_ne {α : Type} {l : List (String × α)} {k k2 : String} {d : α} {f : α → α}
    (h : k2 ≠ k) : getA (modA l k d f) k2 = getA l k2 := by
  induction l with
  | nil => simp [modA, getA, if_neg (Ne.symm h)]
  | cons kv t ih =>
    obtain ⟨k3, v⟩ := kv
    by_cases h3 : k3 = k
    · subst h3
      simp [modA, getA, if_neg (fun hk : k3 = k2 => h (hk ▸ rfl))]
    · simp only [modA, if_neg h3]
      by_cases h32 : k3 = k2
      · simp [getA, if_pos h32]
      · simp [getA, if_neg h32, ih]

theorem mem_keysA_modA {α : Type} {l : List (String × α)} {m k : String} {d : α} {f : α → α}
    (h : m ∈ keysA l) : m ∈ keysA (modA l k d f) := by
  induction l with
  | nil => simp [keysA] at h
  | cons kv t ih =>
    obtain ⟨k2, v⟩ := kv
    by_cases h2 : k2 = k
    · simpa [modA, keysA, if_pos h2] using h
    · simp only [keysA, List.map_cons, List.mem_cons] at h
      rcases h with h | h
      · simp [modA, keysA, if_neg h2, h]
      · simp only [modA, if_neg h2, keysA, List.map_cons, List.mem_cons]
        exact Or.inr (ih h)

theorem getA_adjA_self {α : Type} (l : List (String × α)) (k : String) (f : α → α) :
    getA (adjA l k f) k = (getA l k).map f := by
  induction l with
  | nil => simp [adjA, getA]
  | cons kv t ih =>
    obtain ⟨k2, v⟩ := kv
    show getA ((if k2 = k then (k2, f v) else (k2, v)) :: adjA t k f) k =
      Option.map f (getA ((k2, v) :: t) k)
    by_cases h : k2 = k
    · rw [if_pos h]
      simp [getA, if_pos h]
    · rw [if_neg h]
      simp [getA, if_neg h, ih]

theorem getA_adjA_ne {α : Type} {l : List (String × α)} {k k2 : String} {f : α → α}
    (h : k2 ≠ k) : getA (adjA l k f) k2 = getA l k2 := by
  induction l with
  | nil => simp [adjA, getA]
  | cons kv t ih =>
    obtain ⟨k3, v⟩ := kv
    show getA ((if k3 = k then (k3, f v) else (k3, v)) :: adjA t k f) k2 =
      getA ((k3, v) :: t) k2
    by_cases h3 : k3 = k
    · rw [if_pos h3]
      have hne : k3 ≠ k2 := by rw [h3]; exact Ne.symm h
      simp [getA, if_neg hne, ih]
    · rw [if_neg h3]
      by_cases h32 : k3 = k2
      · simp [getA, if_pos h32]
      · simp [getA, if_neg h32, ih]

theorem keysA_adjA {α : Type} (l : List (String × α)) (k : String) (f : α → α) :
    keysA (adjA l k f) = keysA l := by
  induction l with
  | nil => rfl
  | cons kv t ih =>
    obtain ⟨k2, v⟩ := kv
    by_cases h : k2 = k
    · simp [adjA, keysA, if_pos h] at ih ⊢
      exact ih
    · simp [adjA, keysA, if_neg h] at ih ⊢
      exact ih

theorem mem_keysA_eraseA {α : Type} {l : List (String × α)} {m k : String}
    (hne : m ≠ k) (h : m ∈ keysA l) : m ∈ keysA (eraseA l k) := by
  induction l with
  | nil => simp [keysA] at h
  | cons kv t ih =>
    obtain ⟨k2, v⟩ := kv
    simp only [keysA, List.map_cons, List.mem_cons] at h
    rcases h with h | h
    · subst h
      have he : eraseA ((m, v) :: t) k = (m, v) :: eraseA t k := by
        simp [eraseA, List.filter_cons, hne]
      rw [he]
      simp [keysA]
    · by_cases h2 : k2 = k
      · have he : eraseA ((k2, v) :: t) k = eraseA t k := by
          simp [eraseA, List.filter_cons, h2]
        rw [he]
        exact ih h
      · have he : eraseA ((k2, v) :: t) k = (k2, v) :: eraseA t k := by
          simp [eraseA, List.filter_cons, h2]
        rw [he]
        simp only [keysA, List.map_cons, List.mem_cons]
        exact Or.inr (ih h)

theorem modA_eq_self {α : Type} {l : List (String × α)} {k : String} {d : α} {f : α → α} {v : α}
    (hg : getA l k = some v) (hf : f v = v) : modA l k d f = l := by
  induction l with
  | nil => simp [getA] at hg
  | cons kv t ih =>
    obtain ⟨k2, v2⟩ := kv
    by_cases h : k2 = k
    · simp only [getA, if_pos h] at hg
      obtain rfl : v2 = v := Option.some_injective _ hg
      simp [modA, if_pos h, hf]
    · simp only [getA, if_neg h] at hg
      simp [modA, if_neg h, ih hg]

/-! ### Repository state

The on-disk tree under the repository root: mesh directories (each with
an optional correct.json file and branch subdirectories, each branch
with commit subdirectories, each commit with an optional commit.json)
plus the root-level forest.json file.  Directory entry names are atomic
labels.  The fs-level functions below take path segments in their final
(sanitised) form: the server sanitises every incoming name once at the
top of each endpoint, and the further sanitisation done by the Paths
helpers in the source is the identity on those names because
sanitize_name is idempotent (sanitize_name_idem). -/

/-- Contents of the commit.json placeholder written by
fs.ensure_commit_structure (src/agent/fs.py lines 164-178). -/
structure CommitDoc where
  data_version : String
  datetime : String
  branch : String
  mesh_name : String
deriving DecidableEq, Repr

structure CommitDirS where
  commitJson : Option CommitDoc
deriving DecidableEq, Repr

structure BranchDirS where
  commits : List (String × CommitDirS)
deriving DecidableEq, Repr

structure MeshDirS where
  correctFile : Option JDoc
  branches : List (String × BranchDirS)
deriving DecidableEq, Repr

/-- One commit entry of the forest document; the scanner always leaves
datetime, message and tag null (src/agent/fs.py lines 136-139). -/
structure CommitMeta where
  id : String
  datetime : Option String
  message : Option String
  tag : Option String
deriving DecidableEq, Repr

structure BranchInfo where
  commits : List CommitMeta
deriving DecidableEq, Repr

structure MeshInfo where
  correct_branch : Option JVal
  branches : List (String × BranchInfo)
deriving DecidableEq, Repr

/-- The forest.json document. -/
structure Forest where
  schema_version : String
  updated_at : String
  meshes : List (String × MeshInfo)
deriving DecidableEq, Repr

abbrev Meshes := List (String × MeshDirS)

/-- The repository root: the mesh directories plus the forest.json file
(none when the file does not exist). -/
structure RootS where
  meshes : Meshes
  forestFile : Option Forest
deriving DecidableEq, Repr

def emptyMeshDir : MeshDirS := ⟨none, []⟩

def emptyBranchDir : BranchDirS := ⟨[]⟩

def emptyCommitDir : CommitDirS := ⟨none⟩

def emptyRoot : RootS := ⟨[], none⟩

/-! ### Repository Scanner (src/agent/fs.py lines 78-161) -/

/-- Model of fs.list_meshes: subdirectories of the root, skipping the
reserved name forest.json, in sorted order. -/
def list_meshes (ms : Meshes) : List String :=
  sortAsc ((keysA ms).filter (fun n => decide (n ≠ "forest.json")))

/-- Model of fs.list_branches: subdirectories of the mesh directory in
sorted order, the empty list when the mesh directory is absent. -/
def list_branches (ms : Meshes) (mesh : String) : List String :=
  match getA ms mesh with
  | none => []
  | some md => sortAsc (keysA md.branches)

def branch_dir (ms : Meshes) (mesh branch : String) : Option BranchDirS :=
  (getA ms mesh).bind (fun md => getA md.branches branch)

/-- Model of fs.list_commits: subdirectories of the branch directory in
reverse sorted order, the empty list when the directory is absent. -/
def list_commits (ms : Meshes) (mesh branch : String) : List String :=
  match branch_dir ms mesh branch with
  | none => []
  | some bd => sortDesc (keysA bd.commits)

/-- Model of fs.read_correct for a mesh of the tree: the correct.json
file is present exactly when the mesh directory exists and holds one. -/
def read_correct_in (ms : Meshes) (mesh : String) : Option JVal :=
  read_correct ((getA ms mesh).bind (fun md => md.correctFile))

/-- The payload written by fs.write_correct (src/agent/fs.py 122-128). -/
def correct_doc (branch now : String) : JDoc :=
  [("schema_version", .str "1.0"),
   ("current_branch", .str (sanitize_name branch)),
   ("updated_at", .str now)]

/-- Model of fs.write_correct: atomic_write_json creates the mesh
directory when missing (os.makedirs of the parent). -/
def write_correct (ms : Meshes) (mesh branch now : String) : Meshes :=
  modA ms mesh emptyMeshDir
    (fun md => { md with correctFile := some (correct_doc branch now) })

/-- Model of fs.ensure_branch: os.makedirs with exist_ok. -/
def ensure_branch (ms : Meshes) (mesh branch : String) : Meshes :=
  modA ms mesh emptyMeshDir
    (fun md => { md with branches := modA md.branches branch emptyBranchDir id })

/-- Model of fs.remove_branch: shutil.rmtree of the branch directory if
it exists; parent directories are never created. -/
def remove_branch (ms : Meshes) (mesh branch : String) : Meshes :=
  adjA ms mesh (fun md => { md with branches := eraseA md.branches branch })

/-- The placeholder write of fs.ensure_commit_structure: a commit.json
with data_version 1.0 and the sanitised names, created only when the
file does not already exist. -/
def touch_commit_json (mesh branch iso : String) (cd : CommitDirS) : CommitDirS :=
  match cd.commitJson with
  | some _ => cd
  | none =>
      { cd with
        commitJson := some (CommitDoc.mk "1.0" iso (sanitize_name branch) (sanitize_name mesh)) }

def touch_branch (mesh branch commit iso : String) (bd : BranchDirS) : BranchDirS :=
  { bd with commits := modA bd.commits commit emptyCommitDir (touch_commit_json mesh branch iso) }

def touch_mesh (mesh branch commit iso : String) (md : MeshDirS) : MeshDirS :=
  { md with branches := modA md.branches branch emptyBranchDir (touch_branch mesh branch commit iso) }

/-- Model of fs.ensure_commit_structure: os.makedirs of the commit
directory (creating mesh and branch as needed), then the placeholder
commit.json only when that file does not already exist. -/
def ensure_commit_structure (ms : Meshes) (mesh branch commit iso : String) : Meshes :=
  modA ms mesh emptyMeshDir (touch_mesh mesh branch commit iso)

/-- Model of the commit deletion in server.delete_commit: shutil.rmtree
of the commit directory if it exists. -/
def remove_commit (ms : Meshes) (mesh branch commit : String) : Meshes :=
  adjA ms mesh (fun md =>
    { md with branches := adjA md.branches branch (fun bd =>
        { bd with commits := eraseA bd.commits commit }) })

/-- The meshes object of fs.build_forest (src/agent/fs.py 131-149). -/
def forestScan (ms : Meshes) : List (String × MeshInfo) :=
  (list_meshes ms).map (fun mesh =>
    (mesh,
      { correct_branch := read_correct_in ms mesh,
        branches := (list_branches ms mesh).map (fun br =>
          (br,
            { commits := (list_commits ms mesh br).map
                (fun c => { id := c, datetime := none, message := none, tag := none }) })) }))

/-- Model of fs.build_forest. -/
def build_forest (s : RootS) (now : String) : Forest :=
  { schema_version := "1.0", updated_at := now, meshes := forestScan s.meshes }

/-- Model of fs.write_forest: stamps updated_at and persists. -/
def write_forest (s : RootS) (f : Forest) (now : String) : RootS :=
  { s with forestFile := some { f with updated_at := now } }

/-- Model of fs.read_forest: a synthesized empty forest document when
forest.json does not exist (src/agent/fs.py lines 152-156). -/
def read_forest (s : RootS) (now : String) : Forest :=
  match s.forestFile with
  | some f => f
  | none => { schema_version := "1.0", updated_at := now, meshes := [] }

/-! ### HTTP endpoints (src/agent/server.py)

Each endpoint takes the wall-clock reading(s) of the call as explicit
parameters.  Response bodies are reduced to the parts the claims are
about; echo fields (message, tag and sanitised names in responses) are
never persisted and are omitted. -/

inductive HStatus where
  | ok
  | notFound
  | conflict
deriving DecidableEq, Repr

/-- The two timestamp formats minted during one create-commit call:
sec is strftime of form YYYY-MM-DD_HH-MM-SS (second resolution), iso
the microsecond ISO-8601 instant of iso_now. -/
structure Clock where
  sec : String
  iso : String
deriving DecidableEq, Repr

/-- POST /rescan: rebuild the forest from the tree and persist it. -/
def rescan (s : RootS) (now : String) : RootS :=
  write_forest s (build_forest s now) now

/-- GET /forest: return the persisted forest, or the synthesized empty
document when the file is absent. -/
def get_forest (s : RootS) (now : String) : Forest :=
  read_forest s now

/-- POST /mesh/(mesh)/correct (src/agent/server.py lines 104-114):
404 when the sanitised branch is not a subdirectory of the mesh,
otherwise write correct.json.  Note that the forest is NOT rebuilt. -/
def set_correct (s : RootS) (mesh branch now : String) : HStatus × RootS :=
  let mesh_s := sanitize_name mesh
  let br_s := sanitize_name branch
  if br_s ∈ list_branches s.meshes mesh_s then
    (.ok, { s with meshes := write_correct s.meshes mesh_s br_s now })
  else
    (.notFound, s)

/-- POST /mesh/(mesh)/branch (src/agent/server.py lines 116-125). -/
def create_branch (s : RootS) (mesh branch now : String) : HStatus × RootS :=
  let mesh_s := sanitize_name mesh
  let br_s := sanitize_name branch
  let s1 : RootS := { s with meshes := ensure_branch s.meshes mesh_s br_s }
  (.ok, write_forest s1 (build_forest s1 now) now)

/-- DELETE /mesh/(mesh)/branch/(branch) (src/agent/server.py 127-139):
409 when the branch is the current correct pointer. -/
def delete_branch (s : RootS) (mesh branch now : String) : HStatus × RootS :=
  let mesh_s := sanitize_name mesh
  let br_s := sanitize_name branch
  if read_correct_in s.meshes mesh_s = some (.str br_s) then
    (.conflict, s)
  else
    let s1 : RootS := { s with meshes := remove_branch s.meshes mesh_s br_s }
    (.ok, write_forest s1 (build_forest s1 now) now)

/-- POST /mesh/(mesh)/commit (src/agent/server.py lines 141-161): the
commit identifier is minted server-side from the UTC clock.  Returns
the minted identifier. -/
def create_commit (s : RootS) (mesh branch : String) (clk : Clock) : String × RootS :=
  let mesh_s := sanitize_name mesh
  let br_s := sanitize_name branch
  let s1 : RootS :=
    { s with meshes := ensure_commit_structure s.meshes mesh_s br_s clk.sec clk.iso }
  (clk.sec, write_forest s1 (build_forest s1 clk.iso) clk.iso)

/-- DELETE /mesh/(mesh)/branch/(branch)/commit/(id)
(src/agent/server.py lines 163-175). -/
def delete_commit (s : RootS) (mesh branch commit now : String) : HStatus × RootS :=
  let mesh_s := sanitize_name mesh
  let br_s := sanitize_name branch
  let commit_s := sanitize_name commit
  let s1 : RootS := { s with meshes := remove_commit s.meshes mesh_s br_s commit_s }
  (.ok, write_forest s1 (build_forest s1 now) now)

/-- GET /mesh/(mesh)/branch/(branch)/commits (src/agent/server.py
lines 94-98). -/
def get_commits (s : RootS) (mesh branch : String) : List String :=
  list_commits s.meshes (sanitize_name mesh) (sanitize_name branch)

/-- Forest fidelity: the persisted forest.json equals the forest that a
scan of the tree would build at this moment, up to the updated_at
field (the built forest always carries schema_version 1.0). -/
def scanMatches (s : RootS) : Bool :=
  match s.forestFile with
  | none => false
  | some f => decide (f.schema_version = "1.0" ∧ f.meshes = forestScan s.meshes)

/-! ### Commit-document migration (src/classes/migration.py lines 36-89)

DFM_Migration.migrate_commit_data_format performs, in order: read
commit.json; if its data_version already equals CURRENT_VERSION, stop;
otherwise copy commit.json to commit.json.backup when that file is
absent (shutil.copy2), then open commit.json for writing (which
truncates it) and json.dump the upgraded document.  The operation is
modelled as the list of primitive filesystem steps it performs, so that
the state at every step boundary (a crash point) can be inspected.
When commit.json is absent the function returns True with no steps;
when it is unreadable, json.load raises and the function returns False,
again with no filesystem steps. -/

inductive TFile where
  | absent
  | truncated
  | full (d : JDoc)
deriving DecidableEq, Repr

/-- The two files of one commit directory that the migration touches. -/
structure MigFs where
  commitJson : TFile
  backupFile : TFile
deriving DecidableEq, Repr

inductive MigOp where
  | backupCopy
  | openTruncate
  | dumpJson (d : JDoc)
deriving DecidableEq, Repr

def CURRENT_VERSION : String := "1.1"

/-- Model of data.get("data_version", "1.0"). -/
def get_data_version (d : JDoc) : JVal :=
  (jget d "data_version").getD (.str "1.0")

/-- The document the migration writes: data_version set to the current
constant, and exported_components populated with its default object
when the key is missing. -/
def upgrade_doc (d : JDoc) : JDoc :=
  let d1 := jset d "data_version" (.str CURRENT_VERSION)
  if (jget d1 "exported_components").isSome then d1
  else d1 ++ [("exported_components", .componentsDefault)]

/-- The primitive filesystem steps of migrate_commit_data_format, in
program order.  shutil.copy2 is one primitive step. -/
def migrate_ops (fs : MigFs) : List MigOp :=
  match fs.commitJson with
  | .full d =>
      if get_data_version d = .str CURRENT_VERSION then []
      else
        (if fs.backupFile = .absent then [.backupCopy] else []) ++
          [.openTruncate, .dumpJson (upgrade_doc d)]
  | _ => []

def apply_op (fs : MigFs) (op : MigOp) : MigFs :=
  match op with
  | .backupCopy => { fs with backupFile := fs.commitJson }
  | .openTruncate => { fs with commitJson := .truncated }
  | .dumpJson d => { fs with commitJson := .full d }

def apply_ops (fs : MigFs) (ops : List MigOp) : MigFs :=
  ops.foldl apply_op fs

/-! ### States reachable through plain-segment successful endpoint calls

Reachability from an empty repository root by successful calls whose
sanitised name segments are all plain.  The side conditions on each
step delimit the scope of the relation:

* sanitize_name admits the segments "." and ".." (see
  sanitize_name_dotdot); a path containing them aliases another
  directory at the OS level, which the atomic-label tree of this model
  cannot express.  Such calls are NOT all failures: when the aliasing
  segment is in non-final position the deleting syscalls can succeed
  against the aliased directory - a branch input sanitising to "."
  makes the real delete_commit remove the BRANCH directory named by the
  commit segment and answer 200 (see delete_commit_resolved and
  correct_pointer_invariant_cex).  The plainSeg guards therefore
  genuinely narrow the relation to the plain-segment fragment of the
  successful calls; that fragment is the scope of the amended C3.
* a mesh directory named forest.json would collide with the reserved
  root-level forest.json file (os.replace onto a directory fails), and a
  branch directory named correct.json collides with the per-mesh
  correct.json file, so those creating calls do fail with a server
  error and their exclusion loses nothing.
* the commit identifier of create_commit is minted by strftime with
  format YYYY-MM-DD_HH-MM-SS, hence is always a plain segment; the
  guard on clk.sec records that shape. -/

def plainSeg (n : String) : Prop := n ≠ "." ∧ n ≠ ".."

inductive Reachable : RootS → Prop where
  | empty : Reachable emptyRoot
  | rescan (s : RootS) (now : String) :
      Reachable s → Reachable (rescan s now)
  | set_correct (s : RootS) (mesh branch now : String) :
      Reachable s →
      plainSeg (sanitize_name mesh) →
      (set_correct s mesh branch now).1 = .ok →
      Reachable (set_correct s mesh branch now).2
  | create_branch (s : RootS) (mesh branch now : String) :
      Reachable s →
      plainSeg (sanitize_name mesh) → plainSeg (sanitize_name branch) →
      sanitize_name mesh ≠ "forest.json" →
      sanitize_name branch ≠ "correct.json" →
      Reachable (create_branch s mesh branch now).2
  | delete_branch (s : RootS) (mesh branch now : String) :
      Reachable s →
      plainSeg (sanitize_name mesh) → plainSeg (sanitize_name branch) →
      (delete_branch s mesh branch now).1 = .ok →
      Reachable (delete_branch s mesh branch now).2
  | create_commit (s : RootS) (mesh branch : String) (clk : Clock) :
      Reachable s →
      plainSeg (sanitize_name mesh) → plainSeg (sanitize_name branch) →
      sanitize_name mesh ≠ "forest.json" →
      sanitize_name branch ≠ "correct.json" →
      plainSeg clk.sec →
      Reachable (create_commit s mesh branch clk).2
  | delete_commit (s : RootS) (mesh branch commit now : String) :
      Reachable s →
      plainSeg (sanitize_name mesh) → plainSeg (sanitize_name branch) →
      plainSeg (sanitize_name commit) →
      Reachable (delete_commit s mesh branch commit now).2

/-! ### The correct-pointer invariant over reachable states -/

theorem read_correct_of_correct_doc (b t : String) :
    read_correct (some (correct_doc b t)) = some (.str (sanitize_name b)) := by
  have hne : correct_doc b t ≠ [] := by simp [correct_doc]
  have h1 : jget (correct_doc b t) "current_branch" = some (.str (sanitize_name b)) := by
    simp [correct_doc, jget]
  have ht : truthy (.str (sanitize_name b)) = true := by
    simp [truthy, sanitize_name_ne_empty b]
  simp [read_correct, if_neg hne, h1, pyOr, ht]

/-- Auxiliary invariant carried through the induction: every correct.json
in the tree is a document written by write_correct, naming an existing,
already-sanitised branch of its mesh. -/
def GoodMeshes (ms : Meshes) : Prop :=
  ∀ mesh md, getA ms mesh = some md →
    md.correctFile = none ∨
      ∃ b t, md.correctFile = some (correct_doc b t) ∧
        sanitize_name b = b ∧ b ∈ keysA md.branches

theorem goodMeshes_nil : GoodMeshes [] := by
  intro mesh md h
  simp [getA] at h

theorem exists_of_mem_list_branches {ms : Meshes} {mesh b : String}
    (h : b ∈ list_branches ms mesh) :
    ∃ md, getA ms mesh = some md ∧ b ∈ keysA md.branches := by
  unfold list_branches at h
  cases hg : getA ms mesh with
  | none => rw [hg] at h; simp at h
  | some md =>
      rw [hg] at h
      exact ⟨md, rfl,
        ((List.perm_insertionSort strLe (keysA md.branches)).mem_iff).mp h⟩

theorem goodMeshes_write_correct {ms : Meshes} {m b now : String}
    (h : GoodMeshes ms) (hsan : sanitize_name b = b) (hmem : b ∈ list_branches ms m) :
    GoodMeshes (write_correct ms m b now) := by
  intro mesh md hget
  by_cases hm : mesh = m
  · subst hm
    obtain ⟨md0, hg0, hbmem⟩ := exists_of_mem_list_branches hmem
    simp only [write_correct, getA_modA_self, hg0, Option.getD_some,
      Option.some_inj] at hget
    subst hget
    exact Or.inr ⟨b, now, rfl, hsan, hbmem⟩
  · simp only [write_correct, getA_modA_ne hm] at hget
    exact h mesh md hget

theorem goodMeshes_ensure_branch {ms : Meshes} {m b : String}
    (h : GoodMeshes ms) : GoodMeshes (ensure_branch ms m b) := by
  intro mesh md hget
  by_cases hm : mesh = m
  · subst hm
    simp only [ensure_branch, getA_modA_self] at hget
    cases hg0 : getA ms mesh with
    | none =>
        rw [hg0] at hget
        simp only [Option.getD_none, Option.some_inj] at hget
        subst hget
        exact Or.inl rfl
    | some md0 =>
        rw [hg0] at hget
        simp only [Option.getD_some, Option.some_inj] at hget
        subst hget
        rcases h mesh md0 hg0 with hnone | ⟨b0, t0, hcf, hsan, hmem⟩
        · exact Or.inl hnone
        · exact Or.inr ⟨b0, t0, hcf, hsan, mem_keysA_modA hmem⟩
  · simp only [ensure_branch, getA_modA_ne hm] at hget
    exact h mesh md hget

theorem goodMeshes_ensure_commit {ms : Meshes} {m b c iso : String}
    (h : GoodMeshes ms) : GoodMeshes (ensure_commit_structure ms m b c iso) := by
  intro mesh md hget
  by_cases hm : mesh = m
  · subst hm
    simp only [ensure_commit_structure, getA_modA_self] at hget
    cases hg0 : getA ms mesh with
    | none =>
        rw [hg0] at hget
        simp only [Option.getD_none, Option.some_inj] at hget
        subst hget
        exact Or.inl rfl
    | some md0 =>
        rw [hg0] at hget
        simp only [Option.getD_some, Option.some_inj] at hget
        subst hget
        rcases h mesh md0 hg0 with hnone | ⟨b0, t0, hcf, hsan, hmem⟩
        · exact Or.inl hnone
        · exact Or.inr ⟨b0, t0, hcf, hsan, mem_keysA_modA hmem⟩
  · simp only [ensure_commit_structure, getA_modA_ne hm] at hget
    exact h mesh md hget

theorem goodMeshes_remove_branch {ms : Meshes} {m b : String}
    (h : GoodMeshes ms) (hc : read_correct_in ms m ≠ some (.str b)) :
    GoodMeshes (remove_branch ms m b) := by
  intro mesh md hget
  by_cases hm : mesh = m
  · subst hm
    simp only [remove_branch, getA_adjA_self] at hget
    cases hg0 : getA ms mesh with
    | none => rw [hg0] at hget; simp at hget
    | some md0 =>
        rw [hg0] at hget
        simp only [Option.map_some', Option.some_inj] at hget
        subst hget
        rcases h mesh md0 hg0 with hnone | ⟨b0, t0, hcf, hsan, hmem⟩
        · exact Or.inl hnone
        · have hrc : read_correct_in ms mesh = some (.str b0) := by
            show read_correct ((getA ms mesh).bind (fun md => md.correctFile)) = _
            rw [hg0]
            show read_correct md0.correctFile = _
            rw [hcf, read_correct_of_correct_doc, hsan]
          have hb0 : b0 ≠ b := by
            intro hbe
            exact hc (hbe ▸ hrc)
          exact Or.inr ⟨b0, t0, hcf, hsan, mem_keysA_eraseA hb0 hmem⟩
  · simp only [remove_branch, getA_adjA_ne hm] at hget
    exact h mesh md hget

theorem goodMeshes_remove_commit {ms : Meshes} {m b c : String}
    (h : GoodMeshes ms) : GoodMeshes (remove_commit ms m b c) := by
  intro mesh md hget
  by_cases hm : mesh = m
  · subst hm
    simp only [remove_commit, getA_adjA_self] at hget
    cases hg0 : getA ms mesh with
    | none => rw [hg0] at hget; simp at hget
    | some md0 =>
        rw [hg0] at hget
        simp only [Option.map_some', Option.some_inj] at hget
        subst hget
        rcases h mesh md0 hg0 with hnone | ⟨b0, t0, hcf, hsan, hmem⟩
        · exact Or.inl hnone
        · refine Or.inr ⟨b0, t0, hcf, hsan, ?_⟩
          show b0 ∈ keysA (adjA md0.branches b (fun bd => { bd with commits := eraseA bd.commits c }))
          rw [keysA_adjA]
          exact hmem
  · simp only [remove_commit, getA_adjA_ne hm] at hget
    exact h mesh md hget

theorem reachable_goodMeshes {s : RootS} (h : Reachable s) : GoodMeshes s.meshes := by
  induction h with
  | empty => exact goodMeshes_nil
  | rescan s now _ ih => exact ih
  | set_correct s mesh branch now _ hplain hok ih =>
      by_cases hmem :
          sanitize_name branch ∈ list_branches s.meshes (sanitize_name mesh)
      · have hst : (set_correct s mesh branch now).2 = { s with meshes := write_correct s.meshes (sanitize_name mesh) (sanitize_name branch) now } := by
          simp only [DiffEngine.set_correct, if_pos hmem]
        rw [hst]
        exact goodMeshes_write_correct ih (sanitize_name_idem branch) hmem
      · exfalso
        simp only [DiffEngine.set_correct, if_neg hmem] at hok
        simp at hok
  | create_branch s mesh branch now _ _ _ _ _ ih =>
      exact goodMeshes_ensure_branch ih
  | delete_branch s mesh branch now _ _ _ hok ih =>
      by_cases hc : read_correct_in s.meshes (sanitize_name mesh) =
          some (.str (sanitize_name branch))
      · exfalso
        simp only [DiffEngine.delete_branch, if_pos hc] at hok
        simp at hok
      · have hst : (delete_branch s mesh branch now).2.meshes =
            remove_branch s.meshes (sanitize_name mesh) (sanitize_name branch) := by
          simp only [DiffEngine.delete_branch, if_neg hc]
          rfl
        rw [hst]
        exact goodMeshes_remove_branch ih hc
  | create_commit s mesh branch clk _ _ _ _ _ _ ih =>
      exact goodMeshes_ensure_commit ih
  | delete_commit s mesh branch commit now _ _ _ _ ih =>
      exact goodMeshes_remove_commit ih

/-! ### Absorption of a second same-second create-commit -/

theorem touch_commit_json_isSome (mesh branch iso : String) (cd : CommitDirS) :
    (touch_commit_json mesh branch iso cd).commitJson ≠ none := by
  unfold touch_commit_json
  cases hc : cd.commitJson with
  | none => simp
  | some j => simp [hc]

theorem touch_commit_json_of_isSome (mesh branch iso : String) {cd : CommitDirS}
    (h : cd.commitJson ≠ none) : touch_commit_json mesh branch iso cd = cd := by
  unfold touch_commit_json
  cases hc : cd.commitJson with
  | none => exact absurd hc h
  | some j => simp [hc]

theorem touch_branch_absorb (m b c iso1 iso2 : String) (bd : BranchDirS) :
    touch_branch m b c iso2 (touch_branch m b c iso1 bd) = touch_branch m b c iso1 bd := by
  unfold touch_branch
  have hg := getA_modA_self bd.commits c emptyCommitDir (touch_commit_json m b iso1)
  have habs := touch_commit_json_of_isSome m b iso2
    (touch_commit_json_isSome m b iso1 ((getA bd.commits c).getD emptyCommitDir))
  rw [modA_eq_self hg habs]

theorem touch_mesh_absorb (m b c iso1 iso2 : String) (md : MeshDirS) :
    touch_mesh m b c iso2 (touch_mesh m b c iso1 md) = touch_mesh m b c iso1 md := by
  unfold touch_mesh
  have hg := getA_modA_self md.branches b emptyBranchDir (touch_branch m b c iso1)
  have habs := touch_branch_absorb m b c iso1 iso2
    ((getA md.branches b).getD emptyBranchDir)
  rw [modA_eq_self hg habs]

theorem ensure_commit_structure_absorb (ms : Meshes) (m b c iso1 iso2 : String) :
    ensure_commit_structure (ensure_commit_structure ms m b c iso1) m b c iso2 =
      ensure_commit_structure ms m b c iso1 := by
  unfold ensure_commit_structure
  have hg := getA_modA_self ms m emptyMeshDir (touch_mesh m b c iso1)
  have habs := touch_mesh_absorb m b c iso1 iso2 ((getA ms m).getD emptyMeshDir)
  rw [modA_eq_self hg habs]

/-! ### The path contract of the Paths dataclass (src/agent/fs.py 47-64)

Paths are modelled as the list of segments that the successive
os.path.join calls accumulate under the repository root. -/

namespace Paths

def mesh_dir (root mesh : String) : List String :=
  [root, sanitize_name mesh]

def branch_dir (root mesh branch : String) : List String :=
  mesh_dir root mesh ++ [sanitize_name branch]

def commit_dir (root mesh branch commit : String) : List String :=
  branch_dir root mesh branch ++ [sanitize_name commit]

end Paths

/-! ## Claim theorems -/

/-- C5: for every string s, sanitize_name (sanitize_name s) equals
sanitize_name s, and sanitize_name s contains only characters of the
class A-Za-z0-9 dot underscore hyphen. -/
theorem sanitize_idempotent_charset (s : String) :
    sanitize_name (sanitize_name s) = sanitize_name s ∧
      ∀ c ∈ (sanitize_name s).data, isAllowedChar c = true :=
  ⟨sanitize_name_idem s, fun _ hc => mem_sanitizeList_allowed hc⟩

/-- Witness for C5 at a concrete input containing whitespace, a space
run, and disallowed characters. -/
theorem sanitize_idempotent_charset_witness :
    sanitize_name (sanitize_name " my mesh/v#1 ") = sanitize_name " my mesh/v#1 " :=
  (sanitize_idempotent_charset " my mesh/v#1 ").1

/-- C7 counterexample: every character of the string quote-space-quote
(question mark, space, question mark) lies outside the allowed class,
yet it sanitises to an underscore, not to the sentinel untitled: the
interior space is replaced by the allowed underscore before the
disallowed characters are deleted. -/
theorem sanitize_all_disallowed_cex :
    ("? ?" : String).data.all (fun c => !isAllowedChar c) = true ∧
      sanitize_name "? ?" = "_" ∧ ("_" : String) ≠ "untitled" := by
  decide

/-- C7 (amended): every string all of whose characters are outside the
allowed class AND distinct from the space character sanitises to the
sentinel untitled.  The space character must be excluded even though it
is itself disallowed, because interior spaces are first replaced by the
allowed underscore (see the counterexample). -/
theorem sanitize_all_disallowed_amended (s : String)
    (h : ∀ c ∈ s.data, isAllowedChar c = false ∧ c ≠ ' ') :
    sanitize_name s = "untitled" := by
  unfold sanitize_name
  rw [sanitizeList_all_disallowed h]

/-- Witness for the amended C7 at a concrete all-disallowed input. -/
theorem sanitize_all_disallowed_amended_witness :
    sanitize_name "###" = "untitled" :=
  sanitize_all_disallowed_amended "###" (by decide)

/-- C2 is violated by the code: the dot is a member of the allowed
class, so sanitize_name maps the two-dot name to itself, and the Path
Resolver then builds paths whose user-derived segment is exactly the
dot-dot segment (which at the OS level escapes the mesh or branch
directory). -/
theorem sanitize_name_dotdot :
    sanitize_name ".." = ".." ∧
      ".." ∈ Paths.branch_dir "/r" "m" ".." ∧
      ".." ∈ Paths.commit_dir "/r" "m" "b" ".." := by
  decide

/-- C8 counterexample: a correct.json whose current_branch key is
present with an empty-string value does not yield that value; the falsy
empty string makes the Python or-expression fall through to the legacy
correct_branch key. -/
theorem read_correct_truthy_cex :
    read_correct (some [("current_branch", .str ""), ("correct_branch", .str "legacy")]) =
        some (.str "legacy") ∧
      JVal.str "legacy" ≠ JVal.str "" := by
  decide

/-- C8 (amended): reading the correct pointer yields none when the file
is absent; a current_branch key holding a truthy value (non-null,
non-empty) is returned in preference to correct_branch; but when
current_branch is absent, or present with a falsy value (null or the
empty string), the value of the correct_branch key is returned instead. -/
theorem read_correct_amended (d : JDoc) (v : JVal) :
    read_correct none = none ∧
      (jget d "current_branch" = some v → truthy v = true →
        read_correct (some d) = some v) ∧
      (d ≠ [] → jget d "current_branch" = none →
        read_correct (some d) = jget d "correct_branch") ∧
      (jget d "current_branch" = some v → truthy v = false →
        read_correct (some d) = jget d "correct_branch") := by
  have hne : ∀ w, jget d "current_branch" = some w → d ≠ [] := by
    intro w hw he
    rw [he] at hw
    simp [jget] at hw
  refine ⟨rfl, ?_, ?_, ?_⟩
  · intro h1 h2
    simp [read_correct, if_neg (hne v h1), pyOr, h1, h2]
  · intro hd h1
    simp [read_correct, if_neg hd, pyOr, h1]
  · intro h1 h2
    simp [read_correct, if_neg (hne v h1), pyOr, h1, h2]

/-- Witness for the amended C8: a legacy-only document yields the value
of its correct_branch key. -/
theorem read_correct_amended_witness :
    read_correct (some [("correct_branch", JVal.str "x")]) =
      jget [("correct_branch", JVal.str "x")] "correct_branch" :=
  (read_correct_amended [("correct_branch", JVal.str "x")] JVal.null).2.2.1
    (by decide) (by decide)

/-- C10: when forest.json does not exist, the forest read endpoint does
not fail: it returns the synthesized empty forest document with
schema_version 1.0, the current instant as updated_at, and an empty
meshes object. -/
theorem get_forest_absent (s : RootS) (now : String) (h : s.forestFile = none) :
    get_forest s now = { schema_version := "1.0", updated_at := now, meshes := [] } := by
  simp [get_forest, read_forest, h]

/-- Witness for C10 at the empty repository root. -/
theorem get_forest_absent_witness :
    get_forest emptyRoot "2025-01-01T00:00:00.000000Z" =
      { schema_version := "1.0", updated_at := "2025-01-01T00:00:00.000000Z", meshes := [] } :=
  get_forest_absent emptyRoot "2025-01-01T00:00:00.000000Z" rfl

/-- C9: listing commits of a branch returns exactly the names of the
immediate subdirectories of the branch directory (a permutation of
them), sorted newest-first with respect to the reverse lexicographic
order strGe, and returns the empty list rather than an error when the
branch directory does not exist. -/
theorem list_commits_sorted_desc (ms : Meshes) (mesh branch : String) :
    (branch_dir ms mesh branch = none → list_commits ms mesh branch = []) ∧
      ∀ bd, branch_dir ms mesh branch = some bd →
        (list_commits ms mesh branch).Perm (keysA bd.commits) ∧
          (list_commits ms mesh branch).Sorted strGe := by
  constructor
  · intro h
    simp [list_commits, h]
  · intro bd h
    constructor
    · simp only [list_commits, h]
      exact List.perm_insertionSort strGe (keysA bd.commits)
    · simp only [list_commits, h]
      exact List.sorted_insertionSort strGe (keysA bd.commits)

/-- Concrete repository tree used by witnesses: one mesh with one
branch holding two commit directories listed here out of order. -/
def msW : Meshes :=
  [("m", { correctFile := none,
           branches := [("b", { commits := [("2025-01-02_03-04-05", emptyCommitDir),
                                            ("2025-01-03_00-00-00", emptyCommitDir)] })] })]

/-- Witness for C9: on the concrete tree, the listing is a permutation
of the two commit names (and indeed evaluates newest-first). -/
theorem list_commits_sorted_desc_witness :
    (list_commits msW "m" "b").Perm
      (keysA (BranchDirS.mk [("2025-01-02_03-04-05", emptyCommitDir),
                             ("2025-01-03_00-00-00", emptyCommitDir)]).commits) :=
  ((list_commits_sorted_desc msW "m" "b").2
    (BranchDirS.mk [("2025-01-02_03-04-05", emptyCommitDir),
                    ("2025-01-03_00-00-00", emptyCommitDir)]) rfl).1

/-- Clock readings of two create-commit calls falling in the same
second (equal strftime output, distinct microsecond instants). -/
def clkA : Clock := ⟨"2025-01-02_03-04-05", "2025-01-02T03:04:05.100000Z"⟩

def clkB : Clock := ⟨"2025-01-02_03-04-05", "2025-01-02T03:04:05.900000Z"⟩

def sAfterFirst : RootS := (create_commit emptyRoot "m" "b" clkA).2

def sAfterSecond : RootS := (create_commit sAfterFirst "m" "b" clkB).2

/-- Contents of the commit.json of one commit directory of the tree. -/
def commit_json_at (s : RootS) (mesh branch commit : String) : Option CommitDoc :=
  (getA s.meshes mesh).bind (fun md =>
    (getA md.branches branch).bind (fun bd =>
      (getA bd.commits commit).bind (fun cd => cd.commitJson)))

/-- C4 counterexample: two create-commit calls on one branch within the
same second mint the same directory name, but the second call does NOT
overwrite the first: the shared directory keeps the first call's
commit.json (datetime of the first call), which differs from the
document the second call would have written, and the whole tree is left
unchanged by the second call. -/
theorem create_commit_same_second_cex :
    clkA.sec = clkB.sec ∧
      commit_json_at sAfterSecond "m" "b" "2025-01-02_03-04-05" =
        some (CommitDoc.mk "1.0" "2025-01-02T03:04:05.100000Z" "b" "m") ∧
      CommitDoc.mk "1.0" "2025-01-02T03:04:05.100000Z" "b" "m" ≠
        CommitDoc.mk "1.0" "2025-01-02T03:04:05.900000Z" "b" "m" ∧
      sAfterSecond.meshes = sAfterFirst.meshes := by
  decide

/-- C4 (amended): for two create-commit requests on one mesh and branch
whose server-minted timestamps fall within the same second, the second
request resolves to the same commit directory and is absorbed: it
returns the same identifier and leaves the tree (in particular the
first commit's directory and its commit.json) unchanged, because
ensure_commit_structure only creates what is missing. -/
theorem create_commit_same_second_amended (s : RootS) (mesh branch : String)
    (clk1 clk2 : Clock) (h : clk1.sec = clk2.sec) :
    (create_commit (create_commit s mesh branch clk1).2 mesh branch clk2).1 =
        (create_commit s mesh branch clk1).1 ∧
      (create_commit (create_commit s mesh branch clk1).2 mesh branch clk2).2.meshes =
        (create_commit s mesh branch clk1).2.meshes := by
  constructor
  · exact h.symm
  · show ensure_commit_structure
        (ensure_commit_structure s.meshes (sanitize_name mesh) (sanitize_name branch) clk1.sec clk1.iso)
        (sanitize_name mesh) (sanitize_name branch) clk2.sec clk2.iso =
      ensure_commit_structure s.meshes (sanitize_name mesh) (sanitize_name branch) clk1.sec clk1.iso
    rw [← h]
    exact ensure_commit_structure_absorb s.meshes (sanitize_name mesh)
      (sanitize_name branch) clk1.sec clk1.iso clk2.iso

/-- Witness for the amended C4 on the concrete same-second clocks. -/
theorem create_commit_same_second_amended_witness :
    (create_commit (create_commit emptyRoot "m" "b" clkA).2 "m" "b" clkB).2.meshes =
      (create_commit emptyRoot "m" "b" clkA).2.meshes :=
  (create_commit_same_second_amended emptyRoot "m" "b" clkA clkB (by decide)).2

/-- Fixture for the migration claims: a version 1.0 commit.json in a
commit directory with no backup file. -/
def migDoc0 : JDoc :=
  [("data_version", .str "1.0"), ("datetime", .str "2024-01-01T00:00:00Z")]

def migFs0 : MigFs := ⟨.full migDoc0, .absent⟩

/-- C6 counterexample: the migration does back the original up first,
but the upgraded document is then written with a plain truncating open
and dump, not with the atomic temp-file-and-rename writer: at the crash
point after the truncating open (two of the three primitive steps
done), commit.json is a partially written file, neither the prior
complete document nor the new complete one. -/
theorem migration_nonatomic_cex :
    migrate_ops migFs0 =
        [.backupCopy, .openTruncate, .dumpJson (upgrade_doc migDoc0)] ∧
      (apply_ops migFs0 ((migrate_ops migFs0).take 2)).commitJson = .truncated ∧
      TFile.truncated ≠ .full migDoc0 ∧
      TFile.truncated ≠ .full (upgrade_doc migDoc0) := by
  decide

/-- C6 (amended): on reading a commit.json whose data_version is older
than the current constant, the migration first copies the original to
the backup sibling when that is absent, and then rewrites commit.json
with a plain truncate-then-write, which is NOT atomic: a failure
between the truncation and the completed write leaves a partially
written commit.json; the prior complete document survives only in the
backup sibling (present from every step boundary after the copy), and
an uninterrupted run ends with the upgraded document in commit.json
and the original in the backup. -/
theorem migration_backup_then_write (d : JDoc) (fs : MigFs)
    (hcj : fs.commitJson = .full d)
    (hv : get_data_version d ≠ .str CURRENT_VERSION)
    (hb : fs.backupFile = .absent) :
    migrate_ops fs = [.backupCopy, .openTruncate, .dumpJson (upgrade_doc d)] ∧
      (∀ n, 1 ≤ n → (apply_ops fs ((migrate_ops fs).take n)).backupFile = .full d) ∧
      apply_ops fs (migrate_ops fs) = ⟨.full (upgrade_doc d), .full d⟩ := by
  have hops : migrate_ops fs =
      [.backupCopy, .openTruncate, .dumpJson (upgrade_doc d)] := by
    simp [migrate_ops, hcj, hv, hb]
  refine ⟨hops, ?_, ?_⟩
  · intro n hn
    rw [hops]
    rcases n with _ | n
    · exact absurd hn (by decide)
    rcases n with _ | n
    · simp [apply_ops, apply_op, hcj]
    rcases n with _ | n
    · simp [apply_ops, apply_op, hcj]
    · simp [apply_ops, apply_op, hcj, List.take]
  · rw [hops]
    simp [apply_ops, apply_op, hcj]

/-- Witness for the amended C6 on the concrete version 1.0 fixture. -/
theorem migration_backup_then_write_witness :
    apply_ops migFs0 (migrate_ops migFs0) =
      ⟨.full (upgrade_doc migDoc0), .full migDoc0⟩ :=
  (migration_backup_then_write migDoc0 migFs0 rfl (by decide) rfl).2.2

/-- Helper: any state produced by rebuilding the forest from the tree
and persisting it satisfies forest fidelity. -/
theorem scanMatches_write_forest (s1 : RootS) (now : String) :
    scanMatches (write_forest s1 (build_forest s1 now) now) = true :=
  decide_eq_true ⟨rfl, rfl⟩

/-- Repository built by two successful create-branch calls from the
empty root: mesh m with branches a and b, forest freshly persisted. -/
def s1C1 : RootS := (create_branch emptyRoot "m" "a" "t1").2

def s2C1 : RootS := (create_branch s1C1 "m" "b" "t2").2

/-- C1 counterexample: forest fidelity holds after the branch
creations, the set-correct call then succeeds, but set_correct does not
rebuild the forest, so immediately after its success the persisted
forest.json (whose mesh entry still has a null correct_branch) differs
from the forest a rescan would build (correct_branch now b): fidelity
is violated after the write endpoint set correct branch. -/
theorem set_correct_stale_forest_cex :
    scanMatches s2C1 = true ∧
      (set_correct s2C1 "m" "b" "t3").1 = .ok ∧
      scanMatches (set_correct s2C1 "m" "b" "t3").2 = false := by
  decide

/-- C1 (amended): forest fidelity holds after the four write endpoints
that rebuild and persist the forest before responding - create branch,
delete branch (on success), create commit, delete commit.  It does NOT
hold after set correct branch, which rewrites only correct.json and
leaves the persisted forest stale until the next rescan or
forest-writing mutation (see the counterexample). -/
theorem forest_fidelity_amended (s : RootS) (mesh branch commit : String)
    (clk : Clock) (now : String) :
    scanMatches (create_branch s mesh branch now).2 = true ∧
      ((delete_branch s mesh branch now).1 = .ok →
        scanMatches (delete_branch s mesh branch now).2 = true) ∧
      scanMatches (create_commit s mesh branch clk).2 = true ∧
      scanMatches (delete_commit s mesh branch commit now).2 = true := by
  refine ⟨?_, ?_, ?_, ?_⟩
  · exact scanMatches_write_forest _ _
  · intro hok
    by_cases hc : read_correct_in s.meshes (sanitize_name mesh) =
        some (.str (sanitize_name branch))
    · exfalso
      simp only [delete_branch, if_pos hc] at hok
      simp at hok
    · simp only [delete_branch, if_neg hc]
      exact scanMatches_write_forest _ _
  · exact scanMatches_write_forest _ _
  · exact scanMatches_write_forest _ _

/-- Witness for the amended C1: fidelity after a concrete create-branch
call from the empty root. -/
theorem forest_fidelity_amended_witness :
    scanMatches (create_branch emptyRoot "m" "main" "t0").2 = true :=
  (forest_fidelity_amended emptyRoot "m" "main" "c"
    ⟨"2025-01-01_00-00-00", "2025-01-01T00:00:00.000000Z"⟩ "t0").1

/-- Model of DELETE /mesh/(mesh)/branch/(branch)/commit/(id)
(src/agent/server.py lines 163-175) extended with the OS-level path
resolution that the atomic-label delete_commit cannot express, for
calls whose branch segment sanitises to the aliasing "." while the mesh
and commit segments are plain: os.path.join yields the path
root/mesh_s/./commit_s, which the filesystem resolves to
root/mesh_s/commit_s - the BRANCH directory named commit_s.  The final
textual component commit_s of that path is plain, so os.path.isdir and
shutil.rmtree act on the branch directory and succeed; the forest is
then rebuilt and persisted and the endpoint answers 200.  No
correct-pointer check guards this: delete_commit never calls
read_correct.  For a plain branch segment the behaviour coincides with
delete_commit. -/
def delete_commit_resolved (s : RootS) (mesh branch commit now : String) : HStatus × RootS :=
  let mesh_s := sanitize_name mesh
  let br_s := sanitize_name branch
  let commit_s := sanitize_name commit
  let ms1 : Meshes :=
    if br_s = "." then
      adjA s.meshes mesh_s (fun md => { md with branches := eraseA md.branches commit_s })
    else
      remove_commit s.meshes mesh_s br_s commit_s
  let s1 : RootS := { s with meshes := ms1 }
  (.ok, write_forest s1 (build_forest s1 now) now)

/-- Fixture for the C3 counterexample: from the empty root, create
branch c on mesh m2, then point the correct pointer at c - two
successful plain-segment calls. -/
def s1D : RootS := (create_branch emptyRoot "m2" "c" "t1").2

def s2D : RootS := (set_correct s1D "m2" "c" "t2").2

def s3D : RootS := (delete_commit_resolved s2D "m2" "?.?" "c" "t3").2

/-- C3 counterexample: the correct-pointer invariant is NOT maintained
by every successful endpoint call.  From the empty root, create-branch
and set-correct succeed and leave the correct.json of mesh m2 naming
branch c; the branch input of the third call sanitises to the aliasing
segment ".", so the commit-deletion path resolves to the branch
directory c itself, which is removed with a 200 response and no
correct-pointer check - reaching, through successful calls only, a
state whose correct.json names c while the mesh has no branch
directories at all. -/
theorem correct_pointer_invariant_cex :
    (create_branch emptyRoot "m2" "c" "t1").1 = .ok ∧
      (set_correct s1D "m2" "c" "t2").1 = .ok ∧
      sanitize_name "?.?" = "." ∧
      (delete_commit_resolved s2D "m2" "?.?" "c" "t3").1 = .ok ∧
      (getA s3D.meshes "m2").isSome = true ∧
      read_correct_in s3D.meshes "m2" = some (.str "c") ∧
      list_branches s3D.meshes "m2" = [] := by
  decide

/-- C3 (amended): in every state reachable from the empty root by
successful endpoint calls whose sanitised name segments are plain
(neither "." nor "..", the OS-aliasing segments that the sanitiser
admits) and avoid the reserved file names, whenever the correct.json of
a mesh names a value, that value is a branch name with an existing
directory under the mesh; moreover set-correct answers 404 without
mutating the state when the sanitised target branch is not listed, and
delete-branch answers 409 Conflict without mutating the state when the
sanitised target equals the current correct pointer.  The plain-segment
restriction is forced by the counterexample: an aliasing branch segment
lets delete_commit remove a correct-pointer branch with a 200 response. -/
theorem correct_pointer_invariant (s : RootS) (mesh branch now : String)
    (h : Reachable s) :
    (∀ m md, getA s.meshes m = some md →
        ∀ v, read_correct md.correctFile = some v →
          ∃ b, v = .str b ∧ b ∈ keysA md.branches) ∧
      (sanitize_name branch ∉ list_branches s.meshes (sanitize_name mesh) →
        set_correct s mesh branch now = (.notFound, s)) ∧
      (read_correct_in s.meshes (sanitize_name mesh) =
          some (.str (sanitize_name branch)) →
        delete_branch s mesh branch now = (.conflict, s)) := by
  refine ⟨?_, ?_, ?_⟩
  · intro m md hget v hv
    rcases reachable_goodMeshes h m md hget with hnone | ⟨b, t, hcf, hsan, hmem⟩
    · rw [hnone] at hv
      simp [read_correct] at hv
    · rw [hcf, read_correct_of_correct_doc, hsan] at hv
      exact ⟨b, (Option.some_inj.mp hv).symm, hmem⟩
  · intro hmem
    simp only [set_correct, if_neg hmem]
  · intro hc
    simp only [delete_branch, if_pos hc]

/-- Witness for C3: at the (reachable) empty root, set-correct of a
missing branch answers 404 and leaves the state unchanged. -/
theorem correct_pointer_invariant_witness :
    set_correct emptyRoot "m" "b" "t0" = (.notFound, emptyRoot) :=
  (correct_pointer_invariant emptyRoot "m" "b" "t0" Reachable.empty).2.1 (by decide)

end DiffEngine
